import Mathlib

/-!
# Verification of the sirikata core against its specification

Shallow embedding of the relevant parts of the repository:

* `src/src/util/AtomicTypes.hpp` — `AtomicValue<T>` / `SizedAtomicValue`
* `src/liboh/plugins/ogre/WebViewManager.cpp` — `injectMouseMove`
* `src/src/transfer/CacheLayer.hpp` — `CacheLayer` chain and `getData`
* `src/src/task/EventManager.hpp` — event dispatch (implementation modelled
  from the spec where the `.cpp` is not in the tree)
* `src/libcore/src/network/ASIOReadBuffer.hpp` — framing read buffer
  (implementation modelled from the spec and the header's doc comments)

Machine integers are modelled as `Nat` with explicit `% 2^w` where overflow
matters; pointers/addresses as `Nat`; fallible operations return `Option`.
-/

namespace Sirikata

/-! ## AtomicTypes (`src/src/util/AtomicTypes.hpp`) -/

namespace AtomicTypes

/-- The `shiftammt` computed in `AtomicValue::ALIGN` before complementing:
`sizeof(T)==4 ? 3 : (sizeof(T)==2 ? 1 : (sizeof(T)==8 ? 7 : 15))`. -/
def alignMask (sz : Nat) : Nat :=
  if sz = 4 then 3 else if sz = 2 then 1 else if sz = 8 then 7 else 15

/-- The padding added to `sizeof(T)` in the declaration of `mMemory`:
`sizeof(T)+(sizeof(T)==4?4:(sizeof(T)==2?2:(sizeof(T)==8?8:16)))`. -/
def alignPad (sz : Nat) : Nat :=
  if sz = 4 then 4 else if sz = 2 then 2 else if sz = 8 then 8 else 16

/-- Size in bytes of the `mMemory` buffer of `AtomicValue<T>`. -/
def memoryLen (sz : Nat) : Nat := sz + alignPad sz

/-- `AtomicValue::ALIGN`: `(size_t)data & ~shiftammt`.  Since
`alignMask sz + 1` is a power of two, masking with the complement of
`alignMask sz` rounds the address down to a multiple of `alignMask sz + 1`;
on `Nat` that is `addr - addr % (alignMask sz + 1)`. -/
def ALIGN (sz addr : Nat) : Nat := addr - addr % (alignMask sz + 1)

/-- Modulus of the wrap-around arithmetic of an unsigned integral `T`
of `sz` bytes. -/
def wrapMod (sz : Nat) : Nat := 2 ^ (8 * sz)

/-- An `AtomicValue<T>` holding an unsigned value of `sz` bytes. -/
structure AtomicValue where
  sz : Nat
  val : Nat
deriving DecidableEq, Repr

/-- `SizedAtomicValue<sizeof(T)>::add` (`__sync_add_and_fetch`): stores the
wrapped sum and returns the NEW value. -/
def atomicAdd (a : AtomicValue) (x : Nat) : AtomicValue × Nat :=
  let nv := (a.val + x) % wrapMod a.sz
  (⟨a.sz, nv⟩, nv)

/-- `SizedAtomicValue::inc` (`__sync_add_and_fetch(scalar, 1)`). -/
def atomicInc (a : AtomicValue) : AtomicValue × Nat := atomicAdd a 1

/-- `SizedAtomicValue::dec` (`__sync_sub_and_fetch(scalar, 1)`): subtracting 1
modulo `wrapMod` is adding `wrapMod - 1`. -/
def atomicDec (a : AtomicValue) : AtomicValue × Nat := atomicAdd a (wrapMod a.sz - 1)

/-- Unsigned negation `-x` of a value of `sz` bytes. -/
def negWrap (sz x : Nat) : Nat := (wrapMod sz - x % wrapMod sz) % wrapMod sz

/-- `AtomicValue::operator++()` — returns the incremented (new) value. -/
def preIncOp (a : AtomicValue) : AtomicValue × Nat := atomicInc a

/-- `AtomicValue::operator--()` — returns the decremented (new) value. -/
def preDecOp (a : AtomicValue) : AtomicValue × Nat := atomicDec a

/-- `AtomicValue::operator++(int)`: `return (++*this)-(T)1;`. -/
def postIncOp (a : AtomicValue) : AtomicValue × Nat :=
  let sr := preIncOp a
  (sr.1, (sr.2 + (wrapMod a.sz - 1)) % wrapMod a.sz)

/-- `AtomicValue::operator--(int)`: `return (--*this)+(T)1;`. -/
def postDecOp (a : AtomicValue) : AtomicValue × Nat :=
  let sr := preDecOp a
  (sr.1, (sr.2 + 1) % wrapMod a.sz)

/-- `AtomicValue::operator+=(other)`: `SizedAtomicValue::add`. -/
def addAssignOp (a : AtomicValue) (x : Nat) : AtomicValue × Nat := atomicAdd a x

/-- `AtomicValue::operator-=(other)`: `return *this += -other;`. -/
def subAssignOp (a : AtomicValue) (x : Nat) : AtomicValue × Nat :=
  addAssignOp a (negWrap a.sz x)

end AtomicTypes

/-! ## WebViewManager (`src/liboh/plugins/ogre/WebViewManager.cpp`) -/

namespace WebView

/-- The unparenthesized condition guarding the move-focused-web-view branch of
`WebViewManager::injectMouseMove`:
`focusedWebView && isDraggingFocusedWebView || focusedWebView && mouseButtonRDown`.
C++ gives `&&` higher precedence than `||`, exactly as Lean does here. -/
def injectMouseMoveBranch (focusedWebView isDraggingFocusedWebView mouseButtonRDown : Bool) : Bool :=
  focusedWebView && isDraggingFocusedWebView || focusedWebView && mouseButtonRDown

/-- `WebViewManager::injectMouseMove` reduced to its `eventHandled` result:
the move branch reports the event handled; the else branch reports it handled
exactly when some web view is under the cursor (`getTopWebView` non-null). -/
def injectMouseMoveHandled (focusedWebView isDraggingFocusedWebView mouseButtonRDown topNonNull : Bool) : Bool :=
  if injectMouseMoveBranch focusedWebView isDraggingFocusedWebView mouseButtonRDown then
    true
  else
    topNonNull

end WebView

/-! ## CacheLayer (`src/src/transfer/CacheLayer.hpp`) -/

namespace Cache

/-- A chain of cache layers reachable through `mNext`.  `base` is a layer with
`mNext == NULL`; `tier` links to the next layer.  Each layer carries a local
lookup function.  Modelled from the spec: the local-hit behaviour of derived
tiers (`CacheLayer::getData` in the source is the virtual base implementation,
which never hits locally; a derived tier that satisfies the range invokes the
callback with the data and returns `false` for a synchronous hit). -/
inductive CacheLayerT : Type where
  | base (localHit : Nat → Nat → Option Nat)
  | tier (localHit : Nat → Nat → Option Nat) (next : CacheLayerT)

/-- `CacheLayer::getData(uri, requestedRange, callback)`.  The result is the
ordered list of arguments the callback was invoked with during the call
(`none` models the C++ `NULL`), paired with the returned boolean.  The
miss-with-no-next branch follows the source verbatim: `callback(NULL);
return false;`. -/
def getData : CacheLayerT → Nat → Nat → List (Option Nat) × Bool
  | .base localHit, uri, range =>
    match localHit uri range with
    | some d => ([some d], false)
    | none => ([none], false)
  | .tier localHit next, uri, range =>
    match localHit uri range with
    | some d => ([some d], false)
    | none => getData next uri range

/-- The two pointer fields of a live `CacheLayer`: `mNext` and `mRespondTo`. -/
structure LayerRec where
  next : Option Nat
  respondTo : Option Nat
deriving DecidableEq, Repr

/-- The live layers, as an association list from address to record. -/
abbrev Heap := List (Nat × LayerRec)

def lookupLayer : Heap → Nat → Option LayerRec
  | [], _ => none
  | p :: h, a => if p.1 = a then some p.2 else lookupLayer h a

/-- `CacheLayer::setResponder(other)` applied to the layer at `target`. -/
def setResponder : Heap → Nat → Option Nat → Heap
  | [], _, _ => []
  | p :: h, t, r =>
    (if p.1 = t then (p.1, { p.2 with respondTo := r }) else p) :: setResponder h t r

/-- Remove the layer at address `a` from the heap. -/
def removeLayer : Heap → Nat → Heap
  | [], _ => []
  | p :: h, a => if p.1 = a then removeLayer h a else p :: removeLayer h a

/-- `CacheLayer::CacheLayer(tryNext)` constructing a new layer at address `a`:
`mRespondTo = NULL; mNext = tryNext; if (tryNext) tryNext->setResponder(this);`. -/
def constructLayer (h : Heap) (a : Nat) (tryNext : Option Nat) : Heap :=
  let h1 := match tryNext with
            | some b => setResponder h b (some a)
            | none => h
  (a, ⟨tryNext, none⟩) :: h1

/-- `CacheLayer::~CacheLayer()` destroying the layer at `a`:
`if (mNext) mNext->setResponder(NULL);` then the layer ceases to exist. -/
def destroyLayer (h : Heap) (a : Nat) : Heap :=
  let h1 := match lookupLayer h a with
            | some r => match r.next with
                        | some b => setResponder h b none
                        | none => h
            | none => h
  removeLayer h1 a

inductive CacheOp where
  | construct (a : Nat) (tryNext : Option Nat)
  | destroy (a : Nat)
deriving DecidableEq, Repr

def applyOp (h : Heap) : CacheOp → Heap
  | .construct a n => constructLayer h a n
  | .destroy a => destroyLayer h a

def runOps (ops : List CacheOp) : Heap := ops.foldl applyOp []

/-- The doubly-linked-chain invariant of the claim: for every live pair of
tiers, the next tier's responder equals the tier that links to it. -/
def BackLinkInv (h : Heap) : Prop :=
  ∀ a ra b rb, lookupLayer h a = some ra → ra.next = some b →
    lookupLayer h b = some rb → rb.respondTo = some a

/-- No two live layers share the same next tier. -/
def NextInj (h : Heap) : Prop :=
  ∀ a ra b rb c, lookupLayer h a = some ra → lookupLayer h b = some rb →
    ra.next = some c → rb.next = some c → a = b

/-- Precondition for an operation: a constructed layer has a fresh address
that no live layer's `mNext` references, is not its own next, and its next
tier is not already some live layer's next.  Destruction is unconstrained. -/
def opOk (h : Heap) : CacheOp → Prop
  | .construct a n =>
      lookupLayer h a = none ∧
      (∀ p ∈ h, p.2.next ≠ some a) ∧
      (match n with
       | some b => b ≠ a ∧ ∀ p ∈ h, p.2.next ≠ some b
       | none => True)
  | .destroy _ => True

def OpsOk : Heap → List CacheOp → Prop
  | _, [] => True
  | h, op :: rest => opOk h op ∧ OpsOk (applyOp h op) rest

/-- Three constructions where two layers are built over the same next tier. -/
def cexOps : List CacheOp :=
  [.construct 0 none, .construct 1 (some 0), .construct 2 (some 0)]

/-- A well-behaved sequence: the second chain head is destroyed before a new
layer links to the shared next tier. -/
def goodOps : List CacheOp :=
  [.construct 0 none, .construct 1 (some 0), .destroy 1, .construct 2 (some 0)]

end Cache

/-! ## EventManager (`src/src/task/EventManager.hpp`)

The header only declares `fireAll`, `subscribe`, `unsubscribe` and the
deferral members (`mProcessing`, `mUnsubscribeList`); the implementation file
is not in the tree, so the dispatch loop is modelled from the spec. -/

namespace EventManager

/-- A listener as it matters for dispatch order: an identity and whether its
`EventResponse` has the `CANCEL_EVENT` bit set. -/
structure Listener where
  lid : Nat
  cancel : Bool
deriving DecidableEq, Repr

/-- `PartiallyOrderedListenerList`: the three ordered lists of one
subscription bucket, indexed by `EventOrder` (EARLY, MIDDLE, LATE). -/
structure POListenerList where
  early : List Listener
  middle : List Listener
  late : List Listener
deriving DecidableEq, Repr

/-- Modelled from the spec: `EventManager::fireAll` invoking one listener
list in insertion order, stopping after (and including) the first listener
whose response has `CANCEL_EVENT` set.  Returns the invoked listeners and
whether the event was cancelled. -/
def fireList : List Listener → List Listener × Bool
  | [] => ([], false)
  | l :: rest =>
    if l.cancel then ([l], true)
    else
      let ir := fireList rest
      (l :: ir.1, ir.2)

/-- Modelled from the spec: the event-processing loop running the per-band
lists in sequence and stopping as soon as one reports cancellation. -/
def fireLists : List (List Listener) → List Listener
  | [] => []
  | ll :: rest =>
    let ir := fireList ll
    if ir.2 then ir.1 else ir.1 ++ fireLists rest

/-- Modelled from the spec: dispatch of an event with key `(P, S)` — for each
band EARLY, MIDDLE, LATE, first the specific listeners at `(P, S)`, then the
generic listeners at `P`. -/
def dispatchEvent (specific generic : POListenerList) : List Listener :=
  fireLists [specific.early, generic.early, specific.middle, generic.middle,
             specific.late, generic.late]

/-- The total order claimed by C1, as one flat list. -/
def dispatchOrderList (specific generic : POListenerList) : List Listener :=
  specific.early ++ generic.early ++ specific.middle ++ generic.middle ++
    specific.late ++ generic.late

/-- The prefix of a listener list up to and including its first canceller. -/
def takeUntilCancel : List Listener → List Listener
  | [] => []
  | l :: rest => if l.cancel then [l] else l :: takeUntilCancel rest

/-- Whether some listener of the list cancels the event. -/
def hasCancel (ls : List Listener) : Bool := ls.any (·.cancel)

/-- A re-entrant listener: identity, cancel bit, and the subscribe /
unsubscribe requests its handler issues during dispatch (by listener id). -/
structure RListener where
  lid : Nat
  cancel : Bool
  subsNew : List Nat
  unsubs : List Nat
deriving DecidableEq, Repr

/-- The invoked prefix of a re-entrant chain (up to the first canceller). -/
def takeUntilCancelR : List RListener → List RListener
  | [] => []
  | l :: rest => if l.cancel then [l] else l :: takeUntilCancelR rest

/-- Modelled from the spec: dispatch with the re-entrancy discipline.  The
dispatcher iterates the pre-dispatch snapshot; subscribe and unsubscribe
requests issued by invoked handlers are collected (`mUnsubscribeList`,
`mProcessing`) and applied only after the event completes.  Returns the
invoked listeners and the post-dispatch chain (as listener ids). -/
def dispatchRe (chain : List RListener) : List RListener × List Nat :=
  let invoked := takeUntilCancelR chain
  let unsubIds := invoked.foldr (fun l acc => l.unsubs ++ acc) []
  let subIds := invoked.foldr (fun l acc => l.subsNew ++ acc) []
  (invoked,
   (chain.filter (fun l => decide (l.lid ∉ unsubIds))).map (·.lid) ++ subIds)

/-- One named subscription: a `SubscriptionId` and the listener it holds. -/
structure Subscription where
  sid : Nat
  token : Nat
deriving DecidableEq, Repr

/-- Modelled from the spec (and the header's doc comment of
`EventManager::subscribe` with a `removeId`): "if two subscriptions are
created with the same removeId, the original is unsubscribed and superceded
by this listener" — remove any prior holder of `sid`, then install the new
listener at the end of its list. -/
def emSubscribe (st : List Subscription) (sid tok : Nat) : List Subscription :=
  (st.filter (fun s => decide (s.sid ≠ sid))) ++ [⟨sid, tok⟩]

/-- Modelled from the spec: `EventManager::unsubscribe(removeId)`. -/
def emUnsubscribe (st : List Subscription) (sid : Nat) : List Subscription :=
  st.filter (fun s => decide (s.sid ≠ sid))

inductive SubOp where
  | sub (sid tok : Nat)
  | unsub (sid : Nat)
deriving DecidableEq, Repr

def applySubOp (st : List Subscription) : SubOp → List Subscription
  | .sub sid tok => emSubscribe st sid tok
  | .unsub sid => emUnsubscribe st sid

def runSubOps (ops : List SubOp) : List Subscription := ops.foldl applySubOp []

/-- Scenario S3 of the spec: L1 (EARLY), L2 (MIDDLE, unsubscribes L3 and
subscribes L4), L3 (MIDDLE). -/
def s3L1 : RListener := ⟨1, false, [], []⟩
def s3L2 : RListener := ⟨2, false, [4], [3]⟩
def s3L3 : RListener := ⟨3, false, [], []⟩
def s3chain : List RListener := [s3L1, s3L2, s3L3]

end EventManager

/-! ## ASIOReadBuffer (`src/libcore/src/network/ASIOReadBuffer.hpp`)

The header declares `translateBuffer`, `processPartialChunk`,
`asioReadIntoChunk` and the constants `sLowWaterMark` / `sBufferLength`; the
implementation file is not in the tree, so the algorithm is modelled from the
spec (§4.1, §6) and the header's doc comments.  Bytes are `Nat`s; a
completion hands the machine the list of bytes that arrived. -/

namespace ReadBuffer

/-- `sLowWaterMark = 256` (enum of `ASIOReadBuffer`). -/
def sLowWaterMark : Nat := 256

/-- `sBufferLength = 1440` (enum of `ASIOReadBuffer`): length of `mBuffer`. -/
def sBufferLength : Nat := 1440

/-- Modelled from the spec: total width (1, 2, 4 or 8 bytes) of a varint,
selected by the top two bits of its first byte. -/
def varintWidth (b : Nat) : Nat :=
  match b / 64 with
  | 0 => 1
  | 1 => 2
  | 2 => 4
  | _ => 8

/-- Little-endian base-256 value of a byte list. -/
def leNat : List Nat → Nat
  | [] => 0
  | b :: rest => b + 256 * leNat rest

/-- Modelled from the spec: the decoded value of a varint — the low six bits
of the first byte, then the remaining bytes little-endian. -/
def varintValue : List Nat → Nat
  | [] => 0
  | b :: rest => b % 64 + 64 * leNat rest

/-- A delivered frame: the StreamId and the Chunk payload bytes. -/
abbrev Delivery := Nat × List Nat

/-- Width of the length varint at the front of the data. -/
def lenW (bs : List Nat) : Nat := varintWidth (bs.headD 0)

/-- Decoded frame length: the stream-id encoding plus the payload. -/
def frameLen (bs : List Nat) : Nat := varintValue (bs.take (lenW bs))

/-- The frame body (stream-id encoding plus payload), truncated to what has
arrived. -/
def frameBody (bs : List Nat) : List Nat :=
  (bs.take (lenW bs + frameLen bs)).drop (lenW bs)

/-- Width of the stream-id varint. -/
def sidW (bs : List Nat) : Nat := varintWidth ((frameBody bs).headD 0)

/-- Decoded StreamId of the frame at the front. -/
def frameSid (bs : List Nat) : Nat := varintValue ((frameBody bs).take (sidW bs))

/-- Payload of the frame at the front (what has arrived of it). -/
def framePayload (bs : List Nat) : List Nat := (frameBody bs).drop (sidW bs)

/-- Modelled from the spec (wire frame `<length><stream_id><payload>`,
`length` counting the stream-id encoding plus the payload): parse one
complete frame from the front, giving the delivery and the unconsumed rest,
or `none` while the data at the front is still incomplete. -/
def parseOneFrame (bs : List Nat) : Option (Delivery × List Nat) :=
  if bs = [] then none
  else if bs.length < lenW bs + frameLen bs then none
  else some ((frameSid bs, framePayload bs), bs.drop (lenW bs + frameLen bs))

/-- Greedy scan of all complete frames (fuel-indexed; any `fuel ≥ bs.length`
gives the same result since each frame consumes at least one byte). -/
def scanFrames : Nat → List Nat → List Delivery × List Nat
  | 0, bs => ([], bs)
  | fuel + 1, bs =>
    match parseOneFrame bs with
    | none => ([], bs)
    | some (d, rest) =>
      let dr := scanFrames fuel rest
      (d :: dr.1, dr.2)

/-- All complete frames of a byte sequence, and the trailing partial data. -/
def parseAll (bs : List Nat) : List Delivery × List Nat := scanFrames bs.length bs

/-- The state of an `ASIOReadBuffer` between completions: either reading into
the fixed scratch buffer (`residual` = the unconsumed bytes at offset 0,
`mBufferPos = residual.length`) or reading directly into a large chunk
(`mNewChunk` holds `got` of the `total` payload bytes; `hdr` records the raw
frame-header bytes already consumed from the scratch buffer). -/
inductive RBState where
  | fixedMode (residual : List Nat)
  | chunkMode (sid : Nat) (got : List Nat) (total : Nat) (hdr : List Nat)
deriving DecidableEq, Repr

/-- Modelled from the spec / header doc comments: `processPartialChunk` on
the trailing partial frame `tr` — parse its header, allocate the chunk sized
to the known payload (`length - len(stream_id)`), copy the trailing payload
bytes into the chunk's prefix. -/
def toChunkMode (tr : List Nat) : RBState :=
  match tr with
  | [] => .fixedMode []
  | _ :: _ =>
    .chunkMode (frameSid tr) (framePayload tr) (frameLen tr - sidW tr)
      (tr.take (lenW tr + sidW tr))

/-- Where the next read goes after a scan left trailing bytes `tr`: fewer
than `sLowWaterMark` stay at offset 0 of the scratch buffer, otherwise the
buffer switches to reading into the large chunk. -/
def modeOf (tr : List Nat) : RBState :=
  if tr.length < sLowWaterMark then .fixedMode tr else toChunkMode tr

/-- Modelled from the spec / header doc comments: one ASIO completion handing
`bs` freshly read bytes to the buffer.  In fixed mode this is
`translateBuffer`: scan `mBuffer` from offset 0, deliver every complete
frame, then dispose of the trailing bytes by the low-water rule.  In chunk
mode this is `asioReadIntoChunk`: fill the chunk; when it is full, deliver it
and return to the fixed buffer. -/
def feed : RBState → List Nat → RBState × List Delivery
  | .fixedMode r, bs =>
    let dr := parseAll (r ++ bs)
    (modeOf dr.2, dr.1)
  | .chunkMode sid got total hdr, bs =>
    let need := total - got.length
    if bs.length < need then (.chunkMode sid (got ++ bs) total hdr, [])
    else
      let dr := parseAll (bs.drop need)
      (modeOf dr.2, (sid, got ++ bs.take need) :: dr.1)

/-- The initial state: empty scratch buffer (`mBufferPos = 0`). -/
def initState : RBState := .fixedMode []

/-- The raw unconsumed wire bytes a state stands for. -/
def rawOf : RBState → List Nat
  | .fixedMode r => r
  | .chunkMode _ got _ hdr => hdr ++ got

/-- Feed a sequence of completions, concatenating the deliveries. -/
def feedList : RBState → List (List Nat) → RBState × List Delivery
  | s, [] => (s, [])
  | s, bs :: rest =>
    let f1 := feed s bs
    let f2 := feedList f1.1 rest
    (f2.1, f1.2 ++ f2.2)

/-- One byte per completion. -/
def byteFeeds (bs : List Nat) : List (List Nat) := bs.map (fun b => [b])

def concatChunks : List (List Nat) → List Nat
  | [] => []
  | c :: rest => c ++ concatChunks rest

/-- A byte sequence that is a concatenation of well-formed complete frames:
the greedy parse consumes everything. -/
def wellFormedStream (bs : List Nat) : Prop := (parseAll bs).2 = []

/-- Consistency of a chunk-mode state with its recorded raw header bytes:
the header decodes to this sid and total, the chunk is still incomplete, and
the trailing data that caused the switch was at least `sLowWaterMark` long. -/
def ChunkInv (sid : Nat) (got : List Nat) (total : Nat) (hdr : List Nat) : Prop :=
  hdr ≠ [] ∧
  hdr.length = lenW hdr + sidW hdr ∧
  total + sidW hdr = frameLen hdr ∧
  sid = varintValue (hdr.drop (lenW hdr)) ∧
  got.length < total ∧
  sLowWaterMark ≤ hdr.length + got.length

/-- The machine invariant between completions. -/
def Inv : RBState → Prop
  | .fixedMode r => parseOneFrame r = none ∧ r.length < sLowWaterMark
  | .chunkMode sid got total hdr => ChunkInv sid got total hdr

end ReadBuffer

end Sirikata

/-! ## Theorems -/

namespace Sirikata

open AtomicTypes in
/-- C9: the claim asserts that for every possible start address of `mMemory`,
`ALIGN(mMemory)` lies within the buffer with at least `sizeof(T)` bytes
remaining.  The code rounds the address DOWN (`data & ~shiftammt`), so for any
start address that is not already aligned the result lies strictly BEFORE the
buffer: with `sizeof(T) = 4` and `mMemory` at address 1, `ALIGN` yields
address 0, and the 4-byte access at 0 touches a byte outside
`[1, 1 + memoryLen 4)`. -/
theorem align_rounds_down_escapes_buffer :
    ALIGN 4 1 = 0 ∧ ALIGN 4 1 < 1 ∧
      ¬ (1 ≤ ALIGN 4 1 ∧ ALIGN 4 1 + 4 ≤ 1 + memoryLen 4) := by
  decide

open AtomicTypes in
/-- C10: for an `AtomicValue` of `sz` bytes holding `v` (with `v < 2^(8·sz)`
and `x < 2^(8·sz)`): post-increment returns `v` and stores `v+1`;
post-decrement returns `v` and stores `v-1`; pre-increment returns `v+1`;
`operator+=(x)` returns and stores `v+x`; `operator-=(x)` equals
`operator+=(-x)`; all modulo `2^(8·sz)`. -/
theorem atomicValue_arith_ops (sz v x : Nat) (hv : v < wrapMod sz) (hx : x < wrapMod sz) :
    (postIncOp ⟨sz, v⟩).2 = v ∧
    (postIncOp ⟨sz, v⟩).1.val = (v + 1) % wrapMod sz ∧
    (postDecOp ⟨sz, v⟩).2 = v ∧
    (postDecOp ⟨sz, v⟩).1.val = (v + (wrapMod sz - 1)) % wrapMod sz ∧
    (preIncOp ⟨sz, v⟩).2 = (v + 1) % wrapMod sz ∧
    (addAssignOp ⟨sz, v⟩ x).2 = (v + x) % wrapMod sz ∧
    (addAssignOp ⟨sz, v⟩ x).1.val = (v + x) % wrapMod sz ∧
    subAssignOp ⟨sz, v⟩ x = addAssignOp ⟨sz, v⟩ (negWrap sz x) := by
  have hM : 0 < wrapMod sz := Nat.pos_pow_of_pos _ (by norm_num)
  have hM1 : 1 ≤ wrapMod sz := hM
  refine ⟨?_, ?_, ?_, ?_, ?_, ?_, ?_, ?_⟩
  · -- post-increment returns the old value
    show ((v + 1) % wrapMod sz + (wrapMod sz - 1)) % wrapMod sz = v
    rw [Nat.mod_add_mod]
    have : v + 1 + (wrapMod sz - 1) = v + wrapMod sz := by omega
    rw [this, Nat.add_mod_right, Nat.mod_eq_of_lt hv]
  · rfl
  · -- post-decrement returns the old value
    show ((v + (wrapMod sz - 1)) % wrapMod sz + 1) % wrapMod sz = v
    rw [Nat.mod_add_mod]
    have : v + (wrapMod sz - 1) + 1 = v + wrapMod sz := by omega
    rw [this, Nat.add_mod_right, Nat.mod_eq_of_lt hv]
  · rfl
  · rfl
  · rfl
  · rfl
  · rfl

open AtomicTypes in
/-- Witness for `atomicValue_arith_ops` at `sz = 1`, `v = 5`, `x = 7`. -/
theorem atomicValue_arith_ops_witness :
    (postIncOp ⟨1, 5⟩).2 = 5 ∧
    (postIncOp ⟨1, 5⟩).1.val = (5 + 1) % wrapMod 1 ∧
    (postDecOp ⟨1, 5⟩).2 = 5 ∧
    (postDecOp ⟨1, 5⟩).1.val = (5 + (wrapMod 1 - 1)) % wrapMod 1 ∧
    (preIncOp ⟨1, 5⟩).2 = (5 + 1) % wrapMod 1 ∧
    (addAssignOp ⟨1, 5⟩ 7).2 = (5 + 7) % wrapMod 1 ∧
    (addAssignOp ⟨1, 5⟩ 7).1.val = (5 + 7) % wrapMod 1 ∧
    subAssignOp ⟨1, 5⟩ 7 = addAssignOp ⟨1, 5⟩ (negWrap 1 7) :=
  atomicValue_arith_ops 1 5 7 (by decide) (by decide)

open Cache in
/-- C3: `CacheLayer::getData` on a layer whose `mNext` is null and whose local
index does not satisfy the range invokes the callback exactly once, with NULL,
and returns `false` — the callback has already run by the time `getData`
returns (the invocation list is produced during the call). -/
theorem getData_no_next_miss (localHit : Nat → Nat → Option Nat) (uri range : Nat)
    (h : localHit uri range = none) :
    getData (.base localHit) uri range = ([none], false) := by
  simp [Cache.getData, h]

open Cache in
/-- Witness for `getData_no_next_miss`: an always-missing bottom layer. -/
theorem getData_no_next_miss_witness :
    getData (.base fun _ _ => none) 0 0 = ([none], false) :=
  getData_no_next_miss (fun _ _ => none) 0 0 rfl

open Cache in
/-- C7 counterexample: after `construct 0 none; construct 1 (some 0);
construct 2 (some 0)` — three constructor calls, the last two passing the same
`tryNext` — layer 1 still has `mNext = 0` but layer 0's responder is layer 2,
so the claimed between-operations invariant "the next tier's responder equals
the tier that links to it" is false. -/
theorem cacheLayer_backlink_cex :
    lookupLayer (runOps cexOps) 1 = some ⟨some 0, none⟩ ∧
    lookupLayer (runOps cexOps) 0 = some ⟨none, some 2⟩ ∧
    ¬ BackLinkInv (runOps cexOps) := by
  refine ⟨by decide, by decide, fun hInv => ?_⟩
  have h1 : lookupLayer (runOps cexOps) 1 = some ⟨some 0, none⟩ := by decide
  have h0 : lookupLayer (runOps cexOps) 0 = some ⟨none, some 2⟩ := by decide
  have := hInv 1 ⟨some 0, none⟩ 0 ⟨none, some 2⟩ h1 rfl h0
  simp at this

namespace Cache

theorem lookup_setResponder (h : Heap) (t : Nat) (r : Option Nat) (x : Nat) :
    lookupLayer (setResponder h t r) x =
      (lookupLayer h x).map
        (fun rec => if x = t then { rec with respondTo := r } else rec) := by
  induction h with
  | nil => rfl
  | cons p h ih =>
    by_cases ht : p.1 = t <;> by_cases hx : p.1 = x
    · have hxt : x = t := by rw [← hx, ht]
      simp [setResponder, lookupLayer, ht, hx, hxt]
    · have htx : ¬ t = x := fun hc => hx (ht.trans hc)
      simp [setResponder, lookupLayer, ht, htx, ih]
    · have hxt : ¬ x = t := fun hc => ht (hx.trans hc)
      simp [setResponder, lookupLayer, ht, hx, hxt]
    · simp [setResponder, lookupLayer, ht, hx, ih]

theorem lookup_removeLayer (h : Heap) (a x : Nat) :
    lookupLayer (removeLayer h a) x = if x = a then none else lookupLayer h x := by
  induction h with
  | nil => simp [removeLayer, lookupLayer]
  | cons p h ih =>
    by_cases hp : p.1 = a <;> by_cases hx : p.1 = x
    · have hxa : x = a := by rw [← hx, hp]
      subst hxa
      simp [removeLayer, lookupLayer, hp, ih]
    · by_cases hxa : x = a
      · exact absurd (hp.trans hxa.symm) hx
      · have hax : ¬ a = x := fun hc => hxa hc.symm
        simp [removeLayer, lookupLayer, hp, hx, hxa, hax, ih]
    · have hxa : ¬ x = a := fun hc => hp (hx.trans hc)
      simp [removeLayer, lookupLayer, hp, hx, hxa]
    · simp [removeLayer, lookupLayer, hp, hx, ih]

theorem lookup_mem (h : Heap) (x : Nat) (r : LayerRec)
    (hl : lookupLayer h x = some r) : (x, r) ∈ h := by
  induction h with
  | nil => simp [lookupLayer] at hl
  | cons p h ih =>
    by_cases hp : p.1 = x
    · simp [lookupLayer, hp] at hl
      have hpe : (x, r) = p := by rw [← hp, ← hl]
      exact hpe ▸ List.mem_cons_self p h
    · simp [lookupLayer, hp] at hl
      exact List.mem_cons_of_mem _ (ih hl)

theorem lookup_constructLayer (h : Heap) (a : Nat) (n : Option Nat) (x : Nat) :
    lookupLayer (constructLayer h a n) x =
      if a = x then some ⟨n, none⟩
      else
        match n with
        | some b =>
          (lookupLayer h x).map
            (fun rec => if x = b then { rec with respondTo := some a } else rec)
        | none => lookupLayer h x := by
  cases n <;> simp [constructLayer, lookupLayer, lookup_setResponder]

theorem invariants_applyOp (h : Heap) (op : CacheOp)
    (hB : BackLinkInv h) (hI : NextInj h) (hop : opOk h op) :
    BackLinkInv (applyOp h op) ∧ NextInj (applyOp h op) := by
  cases op with
  | construct a n =>
    obtain ⟨hfresh, hnoref, hn⟩ := hop
    simp only [applyOp]
    cases n with
    | none =>
      constructor
      · intro x ra c rb hx hxn hc
        rw [lookup_constructLayer] at hx hc
        by_cases hax : a = x
        · simp [hax] at hx
          rw [← hx] at hxn
          simp at hxn
        · simp [hax] at hx
          by_cases hac : a = c
          · exact absurd (hac ▸ hxn) (hnoref (x, ra) (lookup_mem h x ra hx))
          · simp [hac] at hc
            exact hB x ra c rb hx hxn hc
      · intro x rx y ry c hx hy hxn hyn
        rw [lookup_constructLayer] at hx hy
        by_cases hax : a = x
        · simp [hax] at hx
          rw [← hx] at hxn
          simp at hxn
        · by_cases hay : a = y
          · simp [hay] at hy
            rw [← hy] at hyn
            simp at hyn
          · simp [hax] at hx
            simp [hay] at hy
            exact hI x rx y ry c hx hy hxn hyn
    | some b =>
      obtain ⟨hba, hnob⟩ := hn
      constructor
      · intro x ra c rb hx hxn hc
        rw [lookup_constructLayer] at hx hc
        by_cases hax : a = x
        · simp [hax] at hx
          rw [← hx] at hxn
          simp at hxn
          rw [← hxn] at hc
          have hab : ¬ a = b := fun hh => hba hh.symm
          simp [hab] at hc
          cases hc0 : lookupLayer h b with
          | none => simp [hc0] at hc
          | some rbOld =>
            simp [hc0] at hc
            rw [← hc]
            simp [hax]
        · simp [hax] at hx
          cases hx0 : lookupLayer h x with
          | none => simp [hx0] at hx
          | some raOld =>
            simp [hx0] at hx
            have hmem : (x, raOld) ∈ h := lookup_mem h x raOld hx0
            have hnext : raOld.next = some c := by
              rw [← hx] at hxn
              by_cases hxb : x = b <;> simp [hxb] at hxn <;> exact hxn
            by_cases hca : a = c
            · exact absurd (hca ▸ hnext) (hnoref (x, raOld) hmem)
            · by_cases hcb : c = b
              · exact absurd (hcb ▸ hnext) (hnob (x, raOld) hmem)
              · simp [hca] at hc
                cases hc0 : lookupLayer h c with
                | none => simp [hc0] at hc
                | some rbOld =>
                  simp [hc0, hcb] at hc
                  have := hB x raOld c rbOld hx0 hnext hc0
                  exact hc ▸ this
      · intro x rx y ry c hx hy hxn hyn
        rw [lookup_constructLayer] at hx hy
        by_cases hax : a = x
        · by_cases hay : a = y
          · rw [← hax, ← hay]
          · simp [hax] at hx
            rw [← hx] at hxn
            simp at hxn
            rw [← hxn] at hyn
            simp [hay] at hy
            cases hy0 : lookupLayer h y with
            | none => simp [hy0] at hy
            | some ryOld =>
              simp [hy0] at hy
              have hnext : ryOld.next = some b := by
                rw [← hy] at hyn
                by_cases hyb : y = b <;> simp [hyb] at hyn <;> exact hyn
              exact absurd hnext (hnob (y, ryOld) (lookup_mem h y ryOld hy0))
        · by_cases hay : a = y
          · simp [hay] at hy
            rw [← hy] at hyn
            simp at hyn
            rw [← hyn] at hxn
            simp [hax] at hx
            cases hx0 : lookupLayer h x with
            | none => simp [hx0] at hx
            | some rxOld =>
              simp [hx0] at hx
              have hnext : rxOld.next = some b := by
                rw [← hx] at hxn
                by_cases hxb : x = b <;> simp [hxb] at hxn <;> exact hxn
              exact absurd hnext (hnob (x, rxOld) (lookup_mem h x rxOld hx0))
          · simp [hax] at hx
            simp [hay] at hy
            cases hx0 : lookupLayer h x with
            | none => simp [hx0] at hx
            | some rxOld =>
              cases hy0 : lookupLayer h y with
              | none => simp [hy0] at hy
              | some ryOld =>
                simp [hx0] at hx
                simp [hy0] at hy
                have hxn0 : rxOld.next = some c := by
                  rw [← hx] at hxn
                  by_cases hxb : x = b <;> simp [hxb] at hxn <;> exact hxn
                have hyn0 : ryOld.next = some c := by
                  rw [← hy] at hyn
                  by_cases hyb : y = b <;> simp [hyb] at hyn <;> exact hyn
                exact hI x rxOld y ryOld c hx0 hy0 hxn0 hyn0
  | destroy a =>
    cases ha : lookupLayer h a with
    | none =>
      have hrw : applyOp h (.destroy a) = removeLayer h a := by
        simp [applyOp, destroyLayer, ha]
      rw [hrw]
      constructor
      · intro x ra c rb hx hxn hc
        rw [lookup_removeLayer] at hx hc
        by_cases hxa : x = a
        · simp [hxa] at hx
        · by_cases hca : c = a
          · simp [hca] at hc
          · simp [hxa] at hx
            simp [hca] at hc
            exact hB x ra c rb hx hxn hc
      · intro x rx y ry c hx hy hxn hyn
        rw [lookup_removeLayer] at hx hy
        by_cases hxa : x = a
        · simp [hxa] at hx
        · by_cases hya : y = a
          · simp [hya] at hy
          · simp [hxa] at hx
            simp [hya] at hy
            exact hI x rx y ry c hx hy hxn hyn
    | some raa =>
      cases han : raa.next with
      | none =>
        have hrw : applyOp h (.destroy a) = removeLayer h a := by
          simp [applyOp, destroyLayer, ha, han]
        rw [hrw]
        constructor
        · intro x ra c rb hx hxn hc
          rw [lookup_removeLayer] at hx hc
          by_cases hxa : x = a
          · simp [hxa] at hx
          · by_cases hca : c = a
            · simp [hca] at hc
            · simp [hxa] at hx
              simp [hca] at hc
              exact hB x ra c rb hx hxn hc
        · intro x rx y ry c hx hy hxn hyn
          rw [lookup_removeLayer] at hx hy
          by_cases hxa : x = a
          · simp [hxa] at hx
          · by_cases hya : y = a
            · simp [hya] at hy
            · simp [hxa] at hx
              simp [hya] at hy
              exact hI x rx y ry c hx hy hxn hyn
      | some bn =>
        have hrw : applyOp h (.destroy a) = removeLayer (setResponder h bn none) a := by
          simp [applyOp, destroyLayer, ha, han]
        rw [hrw]
        constructor
        · intro x ra c rb hx hxn hc
          rw [lookup_removeLayer, lookup_setResponder] at hx hc
          by_cases hxa : x = a
          · simp [hxa] at hx
          · by_cases hca : c = a
            · simp [hca] at hc
            · simp [hxa] at hx
              simp [hca] at hc
              cases hx0 : lookupLayer h x with
              | none => simp [hx0] at hx
              | some raOld =>
                simp [hx0] at hx
                have hxn0 : raOld.next = some c := by
                  rw [← hx] at hxn
                  by_cases hxb : x = bn <;> simp [hxb] at hxn <;> exact hxn
                by_cases hcb : c = bn
                · exact absurd (hI x raOld a raa c hx0 ha hxn0 (hcb ▸ han)) hxa
                · cases hc0 : lookupLayer h c with
                  | none => simp [hc0] at hc
                  | some rbOld =>
                    simp [hc0, hcb] at hc
                    have := hB x raOld c rbOld hx0 hxn0 hc0
                    exact hc ▸ this
        · intro x rx y ry c hx hy hxn hyn
          rw [lookup_removeLayer, lookup_setResponder] at hx hy
          by_cases hxa : x = a
          · simp [hxa] at hx
          · by_cases hya : y = a
            · simp [hya] at hy
            · simp [hxa] at hx
              simp [hya] at hy
              cases hx0 : lookupLayer h x with
              | none => simp [hx0] at hx
              | some rxOld =>
                cases hy0 : lookupLayer h y with
                | none => simp [hy0] at hy
                | some ryOld =>
                  simp [hx0] at hx
                  simp [hy0] at hy
                  have hxn0 : rxOld.next = some c := by
                    rw [← hx] at hxn
                    by_cases hxb : x = bn <;> simp [hxb] at hxn <;> exact hxn
                  have hyn0 : ryOld.next = some c := by
                    rw [← hy] at hyn
                    by_cases hyb : y = bn <;> simp [hyb] at hyn <;> exact hyn
                  exact hI x rxOld y ryOld c hx0 hy0 hxn0 hyn0

theorem invariants_foldOps (ops : List CacheOp) :
    ∀ h : Heap, BackLinkInv h → NextInj h → OpsOk h ops →
      BackLinkInv (ops.foldl applyOp h) ∧ NextInj (ops.foldl applyOp h) := by
  induction ops with
  | nil => intro h hB hI _; exact ⟨hB, hI⟩
  | cons op rest ih =>
    intro h hB hI hok
    obtain ⟨hop, hrest⟩ := hok
    obtain ⟨hB1, hI1⟩ := invariants_applyOp h op hB hI hop
    exact ih (applyOp h op) hB1 hI1 hrest

end Cache

open Cache in
/-- C7 (amended): the constructor with a non-null `tryNext` sets the next
tier's responder to the new layer; the destructor of a layer with non-null
`mNext` resets the next tier's responder to null; and — provided each
construction uses a fresh address that no live layer's `mNext` references and
whose `tryNext` is not already the next of some live layer — after any such
operation sequence every live linked pair of tiers satisfies
`responder (next t) = t`. -/
theorem cacheLayer_chain_backlinks (ops : List CacheOp) (hok : OpsOk [] ops) :
    (∀ h a b rb, lookupLayer h b = some rb → b ≠ a →
        lookupLayer (constructLayer h a (some b)) b =
          some { rb with respondTo := some a }) ∧
    (∀ h a ra b rb, lookupLayer h a = some ra → ra.next = some b → b ≠ a →
        lookupLayer h b = some rb →
        lookupLayer (destroyLayer h a) b = some { rb with respondTo := none }) ∧
    BackLinkInv (runOps ops) := by
  refine ⟨?_, ?_, ?_⟩
  · intro h a b rb hb hba
    rw [lookup_constructLayer]
    have hab : ¬ a = b := fun hh => hba hh.symm
    simp [hab, hb]
  · intro h a ra b rb ha han hba hb
    have hrw : destroyLayer h a = removeLayer (setResponder h b none) a := by
      simp [destroyLayer, ha, han]
    rw [hrw, lookup_removeLayer, lookup_setResponder]
    simp [hba, hb]
  · have hstart : BackLinkInv ([] : Heap) := by
      intro x ra c rb hx
      simp [lookupLayer] at hx
    have hstartI : NextInj ([] : Heap) := by
      intro x rx y ry c hx
      simp [lookupLayer] at hx
    exact (invariants_foldOps ops [] hstart hstartI hok).1

open Cache in
/-- Witness for `cacheLayer_chain_backlinks` at the concrete sequence
`goodOps`. -/
theorem cacheLayer_chain_backlinks_witness :
    OpsOk [] goodOps ∧ BackLinkInv (runOps goodOps) := by
  have hok : OpsOk [] goodOps := by
    refine ⟨⟨rfl, ?_, trivial⟩, ⟨rfl, ?_, ?_, ?_⟩, trivial, ⟨rfl, ?_, ?_, ?_⟩, trivial⟩ <;>
      decide
  exact ⟨hok, (cacheLayer_chain_backlinks goodOps hok).2.2⟩

namespace EventManager

theorem fireList_eq (ls : List Listener) :
    fireList ls = (takeUntilCancel ls, hasCancel ls) := by
  induction ls with
  | nil => simp [fireList, takeUntilCancel, hasCancel]
  | cons l rest ih =>
    by_cases hc : l.cancel <;>
      simp [fireList, takeUntilCancel, hasCancel, hc, ih]

theorem takeUntilCancel_of_not_cancel (xs : List Listener)
    (h : hasCancel xs = false) : takeUntilCancel xs = xs := by
  induction xs with
  | nil => rfl
  | cons l rest ih =>
    simp [hasCancel] at h
    have hr : hasCancel rest = false := by
      simp [hasCancel]
      exact h.2
    simp [takeUntilCancel, h.1, ih hr]

theorem takeUntilCancel_append (xs ys : List Listener) :
    takeUntilCancel (xs ++ ys) =
      if hasCancel xs then takeUntilCancel xs else xs ++ takeUntilCancel ys := by
  induction xs with
  | nil => simp [takeUntilCancel, hasCancel]
  | cons l rest ih =>
    by_cases hc : l.cancel
    · simp [takeUntilCancel, hasCancel, hc]
    · have hcons : hasCancel (l :: rest) = hasCancel rest := by
        simp [hasCancel, hc]
      rw [List.cons_append,
        show takeUntilCancel (l :: (rest ++ ys)) =
          l :: takeUntilCancel (rest ++ ys) from by simp [takeUntilCancel, hc],
        ih, hcons]
      by_cases hr : hasCancel rest
      · simp [hr, takeUntilCancel, hc]
      · simp [hr]

theorem fireLists_eq (lls : List (List Listener)) :
    fireLists lls = takeUntilCancel (lls.foldr (· ++ ·) []) := by
  induction lls with
  | nil => rfl
  | cons ll rest ih =>
    by_cases hc : hasCancel ll
    · simp [fireLists, fireList_eq, hc, takeUntilCancel_append, ih]
    · simp [fireLists, fireList_eq, hc, takeUntilCancel_append, ih,
        takeUntilCancel_of_not_cancel ll (by simpa using hc)]

theorem takeUntilCancelR_subset (chain : List RListener) :
    ∀ l ∈ takeUntilCancelR chain, l ∈ chain := by
  induction chain with
  | nil => simp [takeUntilCancelR]
  | cons x rest ih =>
    by_cases hc : x.cancel
    · intro l hl
      simp [takeUntilCancelR, hc] at hl
      simp [hl]
    · intro l hl
      rw [show takeUntilCancelR (x :: rest) = x :: takeUntilCancelR rest from by
        simp [takeUntilCancelR, hc]] at hl
      rcases List.mem_cons.mp hl with rfl | hl
      · simp
      · exact List.mem_cons_of_mem _ (ih l hl)

theorem takeUntilCancelR_complete (pre : List RListener) :
    ∀ l post, (∀ x ∈ pre, x.cancel = false) →
      l ∈ takeUntilCancelR (pre ++ l :: post) := by
  induction pre with
  | nil =>
    intro l post _
    by_cases hc : l.cancel <;> simp [takeUntilCancelR, hc]
  | cons x rest ih =>
    intro l post hpre
    have hx : x.cancel = false := hpre x (by simp)
    have hstep : takeUntilCancelR (x :: (rest ++ l :: post)) =
        x :: takeUntilCancelR (rest ++ l :: post) := by
      simp [takeUntilCancelR, hx]
    rw [List.cons_append, hstep]
    exact List.mem_cons_of_mem _
      (ih l post fun y hy => hpre y (List.mem_cons_of_mem _ hy))

theorem sids_nodup_applySubOp (st : List Subscription) (op : SubOp)
    (h : (st.map (·.sid)).Nodup) : ((applySubOp st op).map (·.sid)).Nodup := by
  cases op with
  | sub sid tok =>
    have hsub : ((st.filter (fun s => decide (s.sid ≠ sid))).map (·.sid)).Sublist
        (st.map (·.sid)) := (List.filter_sublist st).map _
    have h1 : ((st.filter (fun s => decide (s.sid ≠ sid))).map (·.sid)).Nodup :=
      h.sublist hsub
    have h2 : sid ∉ (st.filter (fun s => decide (s.sid ≠ sid))).map (·.sid) := by
      intro hmem
      simp [List.mem_map, List.mem_filter] at hmem
      obtain ⟨s, ⟨_, hneq⟩, heq⟩ := hmem
      exact hneq heq
    show (((st.filter (fun (s : Subscription) => decide (s.sid ≠ sid)) ++
      [⟨sid, tok⟩] : List Subscription)).map (·.sid)).Nodup
    rw [List.map_append, List.nodup_append]
    refine ⟨h1, by simp, ?_⟩
    intro a ha hb
    have hab : a = sid := by simpa using hb
    rw [hab] at ha
    exact h2 ha
  | unsub sid =>
    have hsub : ((st.filter (fun s => decide (s.sid ≠ sid))).map (·.sid)).Sublist
        (st.map (·.sid)) := (List.filter_sublist st).map _
    simpa [applySubOp, emUnsubscribe] using h.sublist hsub

theorem sids_nodup_foldOps (ops : List SubOp) :
    ∀ st : List Subscription, (st.map (·.sid)).Nodup →
      ((ops.foldl applySubOp st).map (·.sid)).Nodup := by
  induction ops with
  | nil => intro st h; simpa using h
  | cons op rest ih =>
    intro st h
    exact ih (applySubOp st op) (sids_nodup_applySubOp st op h)

end EventManager

open EventManager in
/-- C1: for an event with key `(P, S)`, the invoked listeners are exactly the
prefix — up to and including the first `CANCEL_EVENT` responder — of the
order: for each band EARLY, MIDDLE, LATE, first all specific listeners at
`(P, S)` in insertion order, then all generic listeners at `P` in insertion
order.  In particular no listener after a canceller is invoked. -/
theorem eventManager_dispatch_order (sp gen : POListenerList) :
    dispatchEvent sp gen = takeUntilCancel (dispatchOrderList sp gen) := by
  simp [dispatchEvent, dispatchOrderList, fireLists_eq]

open EventManager in
/-- C2: during one dispatch, the invoked listeners are exactly the
pre-dispatch snapshot up to the first canceller: (i) every invoked listener
was in the pre-dispatch chain (so a listener subscribed during the dispatch,
whose id is not in the chain, is never invoked for this event); (ii) every
listener of the chain preceded only by non-cancelling listeners is invoked —
in particular one that is unsubscribed during the dispatch (deferral). -/
theorem eventManager_reentrancy (chain : List RListener) :
    (dispatchRe chain).1 = takeUntilCancelR chain ∧
    (∀ l ∈ (dispatchRe chain).1, l ∈ chain) ∧
    (∀ i, (∀ l ∈ chain, l.lid ≠ i) → ∀ l ∈ (dispatchRe chain).1, l.lid ≠ i) ∧
    (∀ pre l post, chain = pre ++ l :: post → (∀ x ∈ pre, x.cancel = false) →
      l ∈ (dispatchRe chain).1) := by
  have h1 : (dispatchRe chain).1 = takeUntilCancelR chain := rfl
  refine ⟨h1, ?_, ?_, ?_⟩
  · intro l hl
    rw [h1] at hl
    exact takeUntilCancelR_subset chain l hl
  · intro i hchain l hl
    rw [h1] at hl
    exact hchain l (takeUntilCancelR_subset chain l hl)
  · intro pre l post hdecomp hpre
    rw [h1, hdecomp]
    exact takeUntilCancelR_complete pre l post hpre

open EventManager in
/-- Witness for `eventManager_reentrancy`: scenario S3 — L2 unsubscribes L3
and subscribes L4 during dispatch; L3 (deferred removal) is still invoked and
L4 (id 4, not in the chain) is not. -/
theorem eventManager_reentrancy_witness :
    s3chain = [s3L1] ++ s3L2 :: [s3L3] ∧
    (∀ x ∈ [s3L1], x.cancel = false) ∧
    (∀ l ∈ s3chain, l.lid ≠ 4) ∧
    s3L2 ∈ (dispatchRe s3chain).1 ∧
    (∀ l ∈ (dispatchRe s3chain).1, l.lid ≠ 4) := by
  refine ⟨rfl, by decide, by decide, ?_, ?_⟩
  · exact (eventManager_reentrancy s3chain).2.2.2 [s3L1] s3L2 [s3L3] rfl (by decide)
  · exact (eventManager_reentrancy s3chain).2.2.1 4 (by decide)

open EventManager in
/-- C4: (i) after any sequence of subscribe / unsubscribe operations, at most
one live listener is associated with any given `SubscriptionId` (the ids in
the dispatcher are pairwise distinct); (ii) subscribing with an id that is
already present removes the prior holder before the new listener is
installed, so the replaced listener is no longer present and any event fired
after the replacing subscribe reaches only the new listener under that id. -/
theorem eventManager_named_replacement (ops : List SubOp) (st : List Subscription)
    (sid tokOld tokNew : Nat) (hne : tokOld ≠ tokNew) :
    ((runSubOps ops).map (·.sid)).Nodup ∧
    (⟨sid, tokOld⟩ : Subscription) ∉ emSubscribe st sid tokNew ∧
    (∀ s ∈ emSubscribe st sid tokNew, s.sid = sid → s.token = tokNew) := by
  refine ⟨sids_nodup_foldOps ops [] (by simp), ?_, ?_⟩
  · intro hmem
    simp only [emSubscribe, List.mem_append, List.mem_filter, List.mem_singleton,
      decide_eq_true_eq] at hmem
    rcases hmem with ⟨_, hneq⟩ | heq
    · exact hneq rfl
    · exact hne (congrArg Subscription.token heq)
  · intro s hs hsid
    simp only [emSubscribe, List.mem_append, List.mem_filter, List.mem_singleton,
      decide_eq_true_eq] at hs
    rcases hs with ⟨_, hneq⟩ | rfl
    · exact absurd hsid hneq
    · rfl

open EventManager in
/-- Witness for `eventManager_named_replacement`: id 1 first held by listener
10, then re-subscribed with listener 20. -/
theorem eventManager_named_replacement_witness :
    (10 : Nat) ≠ 20 ∧
    ((runSubOps [.sub 1 10, .sub 1 20]).map (·.sid)).Nodup ∧
    (⟨1, 10⟩ : Subscription) ∉ emSubscribe [⟨1, 10⟩] 1 20 ∧
    (∀ s ∈ emSubscribe [⟨1, 10⟩] 1 20, s.sid = 1 → s.token = 20) :=
  ⟨by decide, eventManager_named_replacement [.sub 1 10, .sub 1 20] [⟨1, 10⟩] 1 10 20 (by decide)⟩

namespace ReadBuffer

theorem varintWidth_pos (b : Nat) : 1 ≤ varintWidth b := by
  unfold varintWidth
  split <;> norm_num

theorem varintWidth_le_eight (b : Nat) : varintWidth b ≤ 8 := by
  unfold varintWidth
  split <;> norm_num

theorem headD_take (l : List Nat) (d : Nat) (n : Nat) (h : 1 ≤ n) :
    (l.take n).headD d = l.headD d := by
  cases l with
  | nil => simp
  | cons x xs =>
    cases n with
    | zero => omega
    | succ m => rfl

theorem headD_append (l l2 : List Nat) (d : Nat) (h : l ≠ []) :
    (l ++ l2).headD d = l.headD d := by
  cases l with
  | nil => exact absurd rfl h
  | cons x xs => rfl

theorem lenW_append (bs cs : List Nat) (h : bs ≠ []) : lenW (bs ++ cs) = lenW bs := by
  unfold lenW
  rw [headD_append bs cs 0 h]

theorem frameLen_append (bs cs : List Nat) (h : bs ≠ []) (hw : lenW bs ≤ bs.length) :
    frameLen (bs ++ cs) = frameLen bs := by
  unfold frameLen
  rw [lenW_append bs cs h, List.take_append_of_le_length hw]

theorem frameBody_append (bs cs : List Nat) (h : bs ≠ [])
    (hc : lenW bs + frameLen bs ≤ bs.length) :
    frameBody (bs ++ cs) = frameBody bs := by
  unfold frameBody
  rw [lenW_append bs cs h,
    frameLen_append bs cs h (le_trans (Nat.le_add_right _ _) hc),
    List.take_append_of_le_length hc]

theorem parseOneFrame_nil : parseOneFrame [] = none := by
  simp [parseOneFrame]

theorem parseOneFrame_mono (bs cs : List Nat) (d : Delivery) (rest : List Nat)
    (h : parseOneFrame bs = some (d, rest)) :
    parseOneFrame (bs ++ cs) = some (d, rest ++ cs) := by
  unfold parseOneFrame at h ⊢
  by_cases hnil : bs = []
  · simp [hnil] at h
  · rw [if_neg hnil] at h
    by_cases hg : bs.length < lenW bs + frameLen bs
    · simp [hg] at h
    · rw [if_neg hg] at h
      have hc : lenW bs + frameLen bs ≤ bs.length := Nat.le_of_not_lt hg
      have hnil2 : ¬ (bs ++ cs) = [] := by simp [hnil]
      have hlw : lenW (bs ++ cs) = lenW bs := lenW_append bs cs hnil
      have hfl : frameLen (bs ++ cs) = frameLen bs :=
        frameLen_append bs cs hnil (le_trans (Nat.le_add_right _ _) hc)
      have hfb : frameBody (bs ++ cs) = frameBody bs := frameBody_append bs cs hnil hc
      have hg2 : ¬ (bs ++ cs).length < lenW (bs ++ cs) + frameLen (bs ++ cs) := by
        rw [hlw, hfl, List.length_append]
        omega
      rw [if_neg hnil2, if_neg hg2, hlw, hfl]
      have hsid : frameSid (bs ++ cs) = frameSid bs := by
        unfold frameSid sidW
        rw [hfb]
      have hpay : framePayload (bs ++ cs) = framePayload bs := by
        unfold framePayload sidW
        rw [hfb]
      have hdrop : (bs ++ cs).drop (lenW bs + frameLen bs) =
          bs.drop (lenW bs + frameLen bs) ++ cs :=
        List.drop_append_of_le_length hc
      rw [hsid, hpay, hdrop]
      have h3 := Option.some.inj h
      have h4 : (frameSid bs, framePayload bs) = d := congrArg Prod.fst h3
      have h5 : bs.drop (lenW bs + frameLen bs) = rest := congrArg Prod.snd h3
      rw [h4, h5]

theorem parseOneFrame_rest_lt (bs : List Nat) (d : Delivery) (rest : List Nat)
    (h : parseOneFrame bs = some (d, rest)) : rest.length < bs.length := by
  unfold parseOneFrame at h
  by_cases hnil : bs = []
  · simp [hnil] at h
  · rw [if_neg hnil] at h
    by_cases hg : bs.length < lenW bs + frameLen bs
    · simp [hg] at h
    · rw [if_neg hg] at h
      have h5 : bs.drop (lenW bs + frameLen bs) = rest :=
        congrArg Prod.snd (Option.some.inj h)
      have hw : 1 ≤ lenW bs := varintWidth_pos _
      have hp : 0 < bs.length := List.length_pos.mpr hnil
      rw [← h5, List.length_drop]
      omega

theorem parseOneFrame_none_incomplete (bs : List Nat) (hnil : bs ≠ [])
    (h : parseOneFrame bs = none) : bs.length < lenW bs + frameLen bs := by
  unfold parseOneFrame at h
  rw [if_neg hnil] at h
  by_cases hg : bs.length < lenW bs + frameLen bs
  · exact hg
  · rw [if_neg hg] at h
    exact absurd h (by simp)

theorem parseOneFrame_none_of_incomplete (bs : List Nat)
    (h : bs.length < lenW bs + frameLen bs) : parseOneFrame bs = none := by
  unfold parseOneFrame
  by_cases hnil : bs = []
  · rw [if_pos hnil]
  · rw [if_neg hnil, if_pos h]

theorem scanFrames_succ_none (fuel : Nat) (bs : List Nat)
    (h : parseOneFrame bs = none) : scanFrames (fuel + 1) bs = ([], bs) := by
  conv_lhs => unfold scanFrames
  simp only [h]

theorem scanFrames_succ_some (fuel : Nat) (bs : List Nat) (d : Delivery)
    (rest : List Nat) (h : parseOneFrame bs = some (d, rest)) :
    scanFrames (fuel + 1) bs =
      (d :: (scanFrames fuel rest).1, (scanFrames fuel rest).2) := by
  conv_lhs => unfold scanFrames
  simp only [h]

theorem scanFrames_congr : ∀ f1 f2 bs, bs.length ≤ f1 → bs.length ≤ f2 →
    scanFrames f1 bs = scanFrames f2 bs := by
  intro f1
  induction f1 with
  | zero =>
    intro f2 bs h1 _
    have hbs : bs = [] := List.length_eq_zero.mp (Nat.le_zero.mp h1)
    subst hbs
    cases f2 with
    | zero => rfl
    | succ m => simp [scanFrames, parseOneFrame_nil]
  | succ n ih =>
    intro f2 bs h1 h2
    cases f2 with
    | zero =>
      have hbs : bs = [] := List.length_eq_zero.mp (Nat.le_zero.mp h2)
      subst hbs
      simp [scanFrames, parseOneFrame_nil]
    | succ m =>
      cases hp : parseOneFrame bs with
      | none => rw [scanFrames_succ_none n bs hp, scanFrames_succ_none m bs hp]
      | some x =>
        obtain ⟨d, rest⟩ := x
        have hlt := parseOneFrame_rest_lt bs d rest hp
        rw [scanFrames_succ_some n bs d rest hp, scanFrames_succ_some m bs d rest hp,
          ih m rest (by omega) (by omega)]

theorem scanFrames_fuel_eq (fuel : Nat) (bs : List Nat) (h : bs.length ≤ fuel) :
    scanFrames fuel bs = parseAll bs :=
  scanFrames_congr fuel bs.length bs h le_rfl

theorem parseAll_nil : parseAll [] = ([], []) := rfl

theorem parseAll_none (bs : List Nat) (h : parseOneFrame bs = none) :
    parseAll bs = ([], bs) := by
  cases bs with
  | nil => rfl
  | cons b tl =>
    show scanFrames (tl.length + 1) (b :: tl) = ([], b :: tl)
    exact scanFrames_succ_none tl.length (b :: tl) h

theorem parseAll_some (bs : List Nat) (d : Delivery) (rest : List Nat)
    (h : parseOneFrame bs = some (d, rest)) :
    parseAll bs = (d :: (parseAll rest).1, (parseAll rest).2) := by
  have hlt := parseOneFrame_rest_lt bs d rest h
  cases bs with
  | nil => rw [parseOneFrame_nil] at h; exact absurd h (by simp)
  | cons b tl =>
    show scanFrames (tl.length + 1) (b :: tl) = _
    rw [scanFrames_succ_some tl.length (b :: tl) d rest h,
      scanFrames_fuel_eq tl.length rest (by simpa using Nat.lt_succ_iff.mp hlt)]

theorem parseAll_residual_aux : ∀ n bs, bs.length ≤ n →
    parseOneFrame (parseAll bs).2 = none := by
  intro n
  induction n with
  | zero =>
    intro bs h
    have hbs : bs = [] := List.length_eq_zero.mp (Nat.le_zero.mp h)
    subst hbs
    rw [parseAll_nil]
    exact parseOneFrame_nil
  | succ m ih =>
    intro bs h
    cases hp : parseOneFrame bs with
    | none => rw [parseAll_none bs hp]; exact hp
    | some x =>
      obtain ⟨d, rest⟩ := x
      have hlt := parseOneFrame_rest_lt bs d rest hp
      rw [parseAll_some bs d rest hp]
      exact ih rest (by omega)

theorem parseAll_snd_none (bs : List Nat) : parseOneFrame (parseAll bs).2 = none :=
  parseAll_residual_aux bs.length bs le_rfl

theorem parseAll_append_aux : ∀ n xs cs, xs.length ≤ n →
    parseAll (xs ++ cs) =
      ((parseAll xs).1 ++ (parseAll ((parseAll xs).2 ++ cs)).1,
       (parseAll ((parseAll xs).2 ++ cs)).2) := by
  intro n
  induction n with
  | zero =>
    intro xs cs h
    have hxs : xs = [] := List.length_eq_zero.mp (Nat.le_zero.mp h)
    subst hxs
    simp [parseAll_nil]
  | succ m ih =>
    intro xs cs h
    cases hp : parseOneFrame xs with
    | none =>
      rw [parseAll_none xs hp]
      simp
    | some x =>
      obtain ⟨d, rest⟩ := x
      have hlt := parseOneFrame_rest_lt xs d rest hp
      have hm := parseOneFrame_mono xs cs d rest hp
      rw [parseAll_some xs d rest hp, parseAll_some (xs ++ cs) d (rest ++ cs) hm,
        ih rest cs (by omega)]
      simp

theorem parseAll_append (xs cs : List Nat) :
    parseAll (xs ++ cs) =
      ((parseAll xs).1 ++ (parseAll ((parseAll xs).2 ++ cs)).1,
       (parseAll ((parseAll xs).2 ++ cs)).2) :=
  parseAll_append_aux xs.length xs cs le_rfl

theorem toChunkMode_eq (tr : List Nat) (h : tr ≠ []) :
    toChunkMode tr = .chunkMode (frameSid tr) (framePayload tr)
      (frameLen tr - sidW tr) (tr.take (lenW tr + sidW tr)) := by
  cases tr with
  | nil => exact absurd rfl h
  | cons b tl => rfl

theorem frameBody_of_incomplete (tr : List Nat)
    (h : tr.length ≤ lenW tr + frameLen tr) :
    frameBody tr = tr.drop (lenW tr) := by
  unfold frameBody
  rw [List.take_of_length_le h]

theorem framePayload_of_incomplete (tr : List Nat)
    (h : tr.length ≤ lenW tr + frameLen tr) :
    framePayload tr = tr.drop (lenW tr + sidW tr) := by
  unfold framePayload
  rw [frameBody_of_incomplete tr h, List.drop_drop]

theorem take_header_facts (tr : List Nat)
    (hincomp : tr.length < lenW tr + frameLen tr)
    (hhd : lenW tr + sidW tr ≤ tr.length)
    (hswL : sidW tr ≤ frameLen tr) :
    lenW (tr.take (lenW tr + sidW tr)) = lenW tr ∧
    frameLen (tr.take (lenW tr + sidW tr)) = frameLen tr ∧
    sidW (tr.take (lenW tr + sidW tr)) = sidW tr ∧
    (tr.take (lenW tr + sidW tr)).length = lenW tr + sidW tr ∧
    (tr.take (lenW tr + sidW tr)).drop (lenW tr) = (tr.drop (lenW tr)).take (sidW tr) := by
  have hwpos : 1 ≤ lenW tr := varintWidth_pos _
  have hswpos : 1 ≤ sidW tr := varintWidth_pos _
  have hW : lenW (tr.take (lenW tr + sidW tr)) = lenW tr := by
    unfold lenW
    rw [headD_take tr 0 _ (by omega)]
  have hLen : (tr.take (lenW tr + sidW tr)).length = lenW tr + sidW tr := by
    rw [List.length_take]
    omega
  have hFL : frameLen (tr.take (lenW tr + sidW tr)) = frameLen tr := by
    unfold frameLen
    rw [hW, List.take_take, Nat.min_eq_left (Nat.le_add_right _ _)]
  have hDrop : (tr.take (lenW tr + sidW tr)).drop (lenW tr) =
      (tr.drop (lenW tr)).take (sidW tr) := by
    rw [List.drop_take, Nat.add_sub_cancel_left]
  have hbody : frameBody (tr.take (lenW tr + sidW tr)) =
      (tr.drop (lenW tr)).take (sidW tr) := by
    rw [frameBody_of_incomplete (tr.take (lenW tr + sidW tr)) (by rw [hW, hFL, hLen]; omega),
      hW, hDrop]
  have hbody2 : frameBody tr = tr.drop (lenW tr) :=
    frameBody_of_incomplete tr (le_of_lt hincomp)
  have hSW : sidW (tr.take (lenW tr + sidW tr)) = sidW tr := by
    rw [show sidW (tr.take (lenW tr + sidW tr)) =
        varintWidth ((frameBody (tr.take (lenW tr + sidW tr))).headD 0) from rfl,
      hbody, headD_take (tr.drop (lenW tr)) 0 (sidW tr) hswpos,
      show sidW tr = varintWidth ((frameBody tr).headD 0) from rfl, hbody2]
  exact ⟨hW, hFL, hSW, hLen, hDrop⟩

theorem toChunkMode_raw (tr : List Nat) (hnone : parseOneFrame tr = none)
    (hlow : sLowWaterMark ≤ tr.length) :
    rawOf (toChunkMode tr) = tr ∧ Inv (toChunkMode tr) := by
  have h256 : (256 : Nat) ≤ tr.length := hlow
  have hnil : tr ≠ [] := by
    intro hh
    rw [hh] at h256
    simp at h256
  have hincomp := parseOneFrame_none_incomplete tr hnil hnone
  have hwle : lenW tr ≤ 8 := varintWidth_le_eight _
  have hwpos : 1 ≤ lenW tr := varintWidth_pos _
  have hswle : sidW tr ≤ 8 := varintWidth_le_eight _
  have hswpos : 1 ≤ sidW tr := varintWidth_pos _
  have hhd : lenW tr + sidW tr ≤ tr.length := by omega
  have hswL : sidW tr ≤ frameLen tr := by omega
  obtain ⟨hW, hFL, hSW, hLen, hDrop⟩ := take_header_facts tr hincomp hhd hswL
  rw [toChunkMode_eq tr hnil]
  constructor
  · show tr.take (lenW tr + sidW tr) ++ framePayload tr = tr
    rw [framePayload_of_incomplete tr (le_of_lt hincomp), List.take_append_drop]
  · show ChunkInv (frameSid tr) (framePayload tr) (frameLen tr - sidW tr)
      (tr.take (lenW tr + sidW tr))
    refine ⟨?_, ?_, ?_, ?_, ?_, ?_⟩
    · intro hq
      rw [hq] at hLen
      simp at hLen
      omega
    · rw [hLen, hW, hSW]
    · rw [hSW, hFL]
      omega
    · unfold frameSid
      rw [frameBody_of_incomplete tr (le_of_lt hincomp), hW, hDrop]
    · rw [framePayload_of_incomplete tr (le_of_lt hincomp), List.length_drop]
      omega
    · have hlw : sLowWaterMark = 256 := rfl
      rw [hlw, hLen, framePayload_of_incomplete tr (le_of_lt hincomp), List.length_drop]
      omega

theorem modeOf_raw (tr : List Nat) (hnone : parseOneFrame tr = none) :
    rawOf (modeOf tr) = tr ∧ Inv (modeOf tr) := by
  unfold modeOf
  by_cases hlt : tr.length < sLowWaterMark
  · rw [if_pos hlt]
    exact ⟨rfl, hnone, hlt⟩
  · rw [if_neg hlt]
    exact toChunkMode_raw tr hnone (Nat.le_of_not_lt hlt)

theorem chunk_parse_none (sid : Nat) (got : List Nat) (total : Nat) (hdr : List Nat)
    (hInv : ChunkInv sid got total hdr) (bs : List Nat)
    (hlt : got.length + bs.length < total) :
    parseOneFrame (hdr ++ (got ++ bs)) = none := by
  obtain ⟨hnil, hlen, htot, hsid, hgot, hlow⟩ := hInv
  have hswpos : 1 ≤ sidW hdr := varintWidth_pos _
  apply parseOneFrame_none_of_incomplete
  rw [lenW_append _ _ hnil, frameLen_append _ _ hnil (by omega),
    List.length_append, List.length_append]
  omega

theorem chunkInv_header_facts (sid : Nat) (got : List Nat) (total : Nat)
    (hdr : List Nat) (hInv : ChunkInv sid got total hdr) (z : List Nat) :
    lenW (hdr ++ z) = lenW hdr ∧
    frameLen (hdr ++ z) = frameLen hdr ∧
    frameBody hdr = hdr.drop (lenW hdr) ∧
    (hdr.drop (lenW hdr)).length = sidW hdr ∧
    hdr.drop (lenW hdr) ≠ [] := by
  obtain ⟨hnil, hlen, htot, hsid, hgot, hlow⟩ := hInv
  have hswpos : 1 ≤ sidW hdr := varintWidth_pos _
  have h4 : (hdr.drop (lenW hdr)).length = sidW hdr := by
    rw [List.length_drop]
    omega
  exact ⟨lenW_append _ _ hnil, frameLen_append _ _ hnil (by omega),
    frameBody_of_incomplete hdr (by omega), h4,
    List.length_pos.mp (by rw [h4]; omega)⟩

theorem frameBody_chunk (sid : Nat) (got : List Nat) (total : Nat) (hdr : List Nat)
    (hInv : ChunkInv sid got total hdr) (z : List Nat) :
    frameBody (hdr ++ z) = hdr.drop (lenW hdr) ++ z.take total := by
  obtain ⟨h1, h2, h3, h4, h5⟩ := chunkInv_header_facts sid got total hdr hInv z
  obtain ⟨hnil, hlen, htot, hsid, hgot, hlow⟩ := hInv
  have hwpos : 1 ≤ lenW hdr := varintWidth_pos _
  unfold frameBody
  rw [h1, h2]
  by_cases hc : z.length ≤ total
  · rw [List.take_of_length_le (by rw [List.length_append]; omega),
      List.drop_append_of_le_length (by omega), List.take_of_length_le hc]
  · have heq : lenW hdr + frameLen hdr = hdr.length + total := by omega
    rw [heq, List.take_append, List.drop_append_of_le_length (by omega)]

theorem chunk_accessors (sid : Nat) (got : List Nat) (total : Nat) (hdr : List Nat)
    (hInv : ChunkInv sid got total hdr) (z : List Nat) :
    sidW (hdr ++ z) = sidW hdr ∧
    frameSid (hdr ++ z) = sid ∧
    framePayload (hdr ++ z) = z.take total := by
  have hfb := frameBody_chunk sid got total hdr hInv z
  obtain ⟨h1, h2, h3, h4, h5⟩ := chunkInv_header_facts sid got total hdr hInv z
  obtain ⟨hnil, hlen, htot, hsid, hgot, hlow⟩ := hInv
  have hSW : sidW (hdr ++ z) = sidW hdr := by
    unfold sidW
    rw [hfb, headD_append _ _ 0 h5, h3]
  refine ⟨hSW, ?_, ?_⟩
  · unfold frameSid
    rw [hfb, hSW, List.take_append_of_le_length (by omega), ← h4,
      List.take_length, hsid]
  · unfold framePayload
    rw [hfb, hSW, List.drop_left' h4]

theorem toChunkMode_grow (sid : Nat) (got : List Nat) (total : Nat) (hdr : List Nat)
    (hInv : ChunkInv sid got total hdr) (z : List Nat) (hlt : z.length < total) :
    toChunkMode (hdr ++ z) = .chunkMode sid z total hdr := by
  obtain ⟨hSW, hSid, hPay⟩ := chunk_accessors sid got total hdr hInv z
  obtain ⟨h1, h2, h3, h4, h5⟩ := chunkInv_header_facts sid got total hdr hInv z
  obtain ⟨hnil, hlen, htot, hsid, hgot, hlow⟩ := hInv
  have hnil2 : hdr ++ z ≠ [] := by simp [hnil]
  rw [toChunkMode_eq (hdr ++ z) hnil2, hSid, hPay, h1, h2, hSW]
  rw [List.take_of_length_le (le_of_lt hlt), List.take_left' hlen]
  have htot2 : frameLen hdr - sidW hdr = total := by omega
  rw [htot2]

theorem chunk_parse_some (sid : Nat) (got : List Nat) (total : Nat) (hdr : List Nat)
    (hInv : ChunkInv sid got total hdr) (z : List Nat) (hge : total ≤ z.length) :
    parseOneFrame (hdr ++ z) = some ((sid, z.take total), z.drop total) := by
  obtain ⟨hSW, hSid, hPay⟩ := chunk_accessors sid got total hdr hInv z
  obtain ⟨h1, h2, h3, h4, h5⟩ := chunkInv_header_facts sid got total hdr hInv z
  obtain ⟨hnil, hlen, htot, hsid, hgot, hlow⟩ := hInv
  have hnil2 : ¬ hdr ++ z = [] := by simp [hnil]
  unfold parseOneFrame
  rw [if_neg hnil2, if_neg (by rw [h1, h2, List.length_append]; omega)]
  rw [hSid, hPay, h1, h2]
  have heq : lenW hdr + frameLen hdr = hdr.length + total := by omega
  rw [heq, List.drop_append]

theorem feed_spec (s : RBState) (bs : List Nat) (hInv : Inv s) :
    feed s bs = (modeOf (parseAll (rawOf s ++ bs)).2, (parseAll (rawOf s ++ bs)).1) := by
  cases s with
  | fixedMode r => rfl
  | chunkMode sid got total hdr =>
    have hCI : ChunkInv sid got total hdr := hInv
    have hgot : got.length < total := hCI.2.2.2.2.1
    have hlow : sLowWaterMark ≤ hdr.length + got.length := hCI.2.2.2.2.2
    have hra : rawOf (RBState.chunkMode sid got total hdr) ++ bs = hdr ++ (got ++ bs) := by
      simp [rawOf]
    rw [hra]
    by_cases hlt : bs.length < total - got.length
    · have hlt2 : got.length + bs.length < total := by omega
      have hpn := chunk_parse_none sid got total hdr hCI bs hlt2
      rw [parseAll_none _ hpn]
      show feed (RBState.chunkMode sid got total hdr) bs =
        (modeOf (hdr ++ (got ++ bs)), [])
      have hmode : modeOf (hdr ++ (got ++ bs)) = .chunkMode sid (got ++ bs) total hdr := by
        unfold modeOf
        rw [if_neg (by rw [List.length_append, List.length_append]; omega),
          toChunkMode_grow sid got total hdr hCI (got ++ bs)
            (by rw [List.length_append]; omega)]
      rw [hmode]
      simp [feed, hlt]
    · have hge : total ≤ (got ++ bs).length := by
        rw [List.length_append]
        omega
      have hps := chunk_parse_some sid got total hdr hCI (got ++ bs) hge
      have htk : (got ++ bs).take total = got ++ bs.take (total - got.length) := by
        have htot2 : total = got.length + (total - got.length) := by omega
        rw [htot2, List.take_append, Nat.add_sub_cancel_left]
      have hdk : (got ++ bs).drop total = bs.drop (total - got.length) := by
        have htot2 : total = got.length + (total - got.length) := by omega
        rw [htot2, List.drop_append, Nat.add_sub_cancel_left]
      rw [htk, hdk] at hps
      rw [parseAll_some _ _ _ hps]
      show feed (RBState.chunkMode sid got total hdr) bs = _
      simp only [feed, if_neg hlt]

theorem inv_raw_none (s : RBState) (hInv : Inv s) : parseOneFrame (rawOf s) = none := by
  cases s with
  | fixedMode r => exact hInv.1
  | chunkMode sid got total hdr =>
    have hCI : ChunkInv sid got total hdr := hInv
    have hgot : got.length < total := hCI.2.2.2.2.1
    have := chunk_parse_none sid got total hdr hCI [] (by simp; omega)
    simpa using this

theorem feed_raw_inv (s : RBState) (bs : List Nat) (hInv : Inv s) :
    Inv (feed s bs).1 ∧ rawOf (feed s bs).1 = (parseAll (rawOf s ++ bs)).2 := by
  rw [feed_spec s bs hInv]
  have hmr := modeOf_raw (parseAll (rawOf s ++ bs)).2 (parseAll_snd_none (rawOf s ++ bs))
  exact ⟨hmr.2, hmr.1⟩

theorem feedList_spec (chunks : List (List Nat)) :
    ∀ s : RBState, Inv s →
      (feedList s chunks).2 = (parseAll (rawOf s ++ concatChunks chunks)).1 ∧
      Inv (feedList s chunks).1 ∧
      rawOf (feedList s chunks).1 = (parseAll (rawOf s ++ concatChunks chunks)).2 := by
  induction chunks with
  | nil =>
    intro s hInv
    have h0 := parseAll_none (rawOf s) (inv_raw_none s hInv)
    show ([] : List Delivery) = (parseAll (rawOf s ++ concatChunks [])).1 ∧
      Inv s ∧ rawOf s = (parseAll (rawOf s ++ concatChunks [])).2
    have hc : rawOf s ++ concatChunks [] = rawOf s := by simp [concatChunks]
    rw [hc, h0]
    exact ⟨rfl, hInv, rfl⟩
  | cons bs rest ih =>
    intro s hInv
    obtain ⟨hInv1, hraw1⟩ := feed_raw_inv s bs hInv
    obtain ⟨ihd, ihi, ihr⟩ := ih (feed s bs).1 hInv1
    have hfd : (feed s bs).2 = (parseAll (rawOf s ++ bs)).1 := by
      rw [feed_spec s bs hInv]
    have happ := parseAll_append (rawOf s ++ bs) (concatChunks rest)
    have hassoc : rawOf s ++ bs ++ concatChunks rest =
        rawOf s ++ concatChunks (bs :: rest) := by
      show rawOf s ++ bs ++ concatChunks rest = rawOf s ++ (bs ++ concatChunks rest)
      rw [List.append_assoc]
    rw [hassoc] at happ
    have hfl1 : (feedList s (bs :: rest)).1 = (feedList (feed s bs).1 rest).1 := rfl
    have hfl2 : (feedList s (bs :: rest)).2 =
        (feed s bs).2 ++ (feedList (feed s bs).1 rest).2 := rfl
    refine ⟨?_, ?_, ?_⟩
    · rw [hfl2, hfd, ihd, hraw1, happ]
    · rw [hfl1]
      exact ihi
    · rw [hfl1, ihr, hraw1, happ]

theorem concat_byteFeeds (bs : List Nat) : concatChunks (byteFeeds bs) = bs := by
  induction bs with
  | nil => rfl
  | cons b tl ih =>
    show [b] ++ concatChunks (byteFeeds tl) = b :: tl
    rw [ih]
    rfl

end ReadBuffer

open ReadBuffer in
/-- C5: the scratch region is exactly 1440 bytes and the low-water mark 256
(the `ASIOReadBuffer` enum); after a scan, trailing bytes numbering fewer
than 256 are moved to offset 0 of the scratch region and reading continues
there, otherwise the buffer switches to a large chunk whose prefix holds the
trailing payload bytes (header plus chunk prefix reassemble exactly the
trailing bytes, and the chunk size is the frame's payload length decoded from
the header: `total + sidW = frameLen`), and subsequent reads append directly
into the large chunk. -/
theorem readBuffer_scratch_and_lowwater (r bs : List Nat)
    (sid : Nat) (got : List Nat) (total : Nat) (hdr : List Nat) (more : List Nat)
    (hCI : ChunkInv sid got total hdr) (hmore : more.length < total - got.length) :
    sBufferLength = 1440 ∧ sLowWaterMark = 256 ∧
    ((parseAll (r ++ bs)).2.length < sLowWaterMark →
      feed (.fixedMode r) bs =
        (.fixedMode (parseAll (r ++ bs)).2, (parseAll (r ++ bs)).1)) ∧
    (sLowWaterMark ≤ (parseAll (r ++ bs)).2.length →
      feed (.fixedMode r) bs =
        (toChunkMode (parseAll (r ++ bs)).2, (parseAll (r ++ bs)).1) ∧
      rawOf (toChunkMode (parseAll (r ++ bs)).2) = (parseAll (r ++ bs)).2 ∧
      Inv (toChunkMode (parseAll (r ++ bs)).2)) ∧
    feed (.chunkMode sid got total hdr) more =
      (.chunkMode sid (got ++ more) total hdr, []) := by
  refine ⟨rfl, rfl, ?_, ?_, ?_⟩
  · intro hlt
    show (modeOf (parseAll (r ++ bs)).2, (parseAll (r ++ bs)).1) = _
    unfold modeOf
    rw [if_pos hlt]
  · intro hge
    have hres := parseAll_snd_none (r ++ bs)
    have htc := toChunkMode_raw (parseAll (r ++ bs)).2 hres hge
    refine ⟨?_, htc.1, htc.2⟩
    show (modeOf (parseAll (r ++ bs)).2, (parseAll (r ++ bs)).1) = _
    unfold modeOf
    rw [if_neg (by omega)]
  · simp [feed, hmore]

set_option maxRecDepth 4096 in
open ReadBuffer in
/-- Witness for `readBuffer_scratch_and_lowwater`: a chunk-mode state for a
300-byte frame (`hdr = [108, 4, 5]` decoding to frame length 300 on stream 5)
with 260 of its 299 payload bytes already received, fed one more byte. -/
theorem readBuffer_scratch_and_lowwater_witness :
    ChunkInv 5 (List.replicate 260 7) 299 [108, 4, 5] ∧
    ([9] : List Nat).length < 299 - (List.replicate 260 (7 : Nat)).length ∧
    feed (.chunkMode 5 (List.replicate 260 7) 299 [108, 4, 5]) [9] =
      (.chunkMode 5 (List.replicate 260 7 ++ [9]) 299 [108, 4, 5], []) := by
  have hCI : ChunkInv 5 (List.replicate 260 7) 299 [108, 4, 5] := by
    unfold ChunkInv
    decide
  have hm : ([9] : List Nat).length < 299 - (List.replicate 260 (7 : Nat)).length := by
    decide
  exact ⟨hCI, hm,
    (readBuffer_scratch_and_lowwater [] [] 5 (List.replicate 260 7) 299
      [108, 4, 5] [9] hCI hm).2.2.2.2⟩

open ReadBuffer in
/-- C6: for a byte sequence `B` that is a concatenation of well-formed
frames, feeding `B` to the ReadBuffer one byte per completion yields exactly
the same ordered sequence of `(StreamId, Chunk)` deliveries as feeding all of
`B` in a single completion. -/
theorem readBuffer_byte_eq_single (B : List Nat) (hwf : wellFormedStream B) :
    (feedList initState (byteFeeds B)).2 = (feed initState B).2 := by
  have hInv0 : Inv initState := ⟨parseOneFrame_nil, by simp [sLowWaterMark]⟩
  obtain ⟨hd, _, _⟩ := feedList_spec (byteFeeds B) initState hInv0
  rw [hd, concat_byteFeeds B]
  show (parseAll (rawOf initState ++ B)).1 = (parseAll ([] ++ B)).1
  rfl

open ReadBuffer in
/-- Witness for `readBuffer_byte_eq_single`: two well-formed frames,
`(sid 0, empty payload)` and `(sid 5, payload [9])`. -/
theorem readBuffer_byte_eq_single_witness :
    wellFormedStream [1, 0, 2, 5, 9] ∧
    (feedList initState (byteFeeds [1, 0, 2, 5, 9])).2 =
      (feed initState [1, 0, 2, 5, 9]).2 := by
  have hwf : wellFormedStream [1, 0, 2, 5, 9] := by
    unfold wellFormedStream
    decide
  exact ⟨hwf, readBuffer_byte_eq_single [1, 0, 2, 5, 9] hwf⟩

/-- C8: the unparenthesized condition of `WebViewManager::injectMouseMove`
evaluates, under C++ precedence, as `(focused AND dragging) OR (focused AND
right-down)`, i.e. the branch is taken iff `focusedWebView` is non-null and at
least one of `isDraggingFocusedWebView`, `mouseButtonRDown` holds; and when it
is taken the event is reported handled. -/
theorem injectMouseMove_branch_condition :
    ∀ f d r : Bool,
      (WebView.injectMouseMoveBranch f d r = (f && (d || r))) ∧
      (WebView.injectMouseMoveBranch f d r = true ↔
        f = true ∧ (d = true ∨ r = true)) ∧
      (∀ t : Bool, WebView.injectMouseMoveBranch f d r = true →
        WebView.injectMouseMoveHandled f d r t = true) := by
  decide

end Sirikata
